import Mathlib

/-!
Verification development for the k8s-redeployer repository.

The core of the repository is the Go function `redeployDatabasePods`
(src/main.go): it lists all Deployments cluster-wide, keeps those whose
name contains the substring "database" in a map keyed by deployment name
(value: the deployment's label selector rendered as a selector-query
string), and then, for each map entry, lists the pods matching the
selector and issues one strategic-merge patch call per listed pod against
the Deployments resource (in the pod's namespace), recording one outcome
per pod.

The embedding below is shallow and executable:
- the cluster API client is an explicit environment (`ClusterEnv`) whose
  fields give the outcome of each kind of API call;
- successive `time.Now().UTC().Format(time.RFC3339)` readings are
  modelled by `ClusterEnv.clock`, indexed by the number of readings made
  so far in the run;
- the run returns the Go function's pair (DeploymentDetails, error)
  together with the ordered trace of API calls it issued;
- Go's map iteration order is unspecified; the embedding iterates the
  deployment map in key-insertion order as a deterministic
  representative (insert-or-replace association list), which matches the
  map's key/value semantics exactly.
-/

namespace Redeploy

/-! ## Label selectors (modelled from the spec)

`metav1.FormatLabelSelector` is library code that is not part of this
repository's sources.  Modelled from the spec: a structured selector has
`matchLabels` (equality terms) and `matchExpressions` (set-based terms
with operators In, NotIn, Exists, DoesNotExist), and is rendered to the
canonical label-selector string grammar: equality as `key=value`, set
membership as `key in (v1,v2)`, negation as `key notin (...)`, existence
as bare `key`, negated existence as `!key`, with requirements joined by
commas.  Strings are modelled as lists of characters. -/

inductive SelOp where
  | opIn
  | opNotIn
  | opExists
  | opDoesNotExist
deriving DecidableEq

structure MatchExpr where
  key : List Char
  op : SelOp
  values : List (List Char)
deriving DecidableEq

structure LabelSelector where
  matchLabels : List (List Char × List Char)
  matchExpressions : List MatchExpr
deriving DecidableEq

/-- A pod's label set: an association list from label key to label value. -/
def Labels : Type := List (List Char × List Char)

/-- Look up a label key in a pod's label set. -/
def getLabel (pod : Labels) (k : List Char) : Option (List Char) :=
  List.lookup k pod

/-- Structured semantics of one set-based match expression (Kubernetes
label-selector semantics: NotIn and DoesNotExist also accept pods that
lack the key). -/
def matchesExpr (pod : Labels) (e : MatchExpr) : Bool :=
  match e.op with
  | SelOp.opIn =>
    match getLabel pod e.key with
    | some v => e.values.contains v
    | none => false
  | SelOp.opNotIn =>
    match getLabel pod e.key with
    | some v => !(e.values.contains v)
    | none => true
  | SelOp.opExists => (getLabel pod e.key).isSome
  | SelOp.opDoesNotExist => (getLabel pod e.key).isNone

/-- Structured semantics of a whole selector: every matchLabels equality
and every matchExpressions requirement must hold. -/
def matchesSelector (s : LabelSelector) (pod : Labels) : Bool :=
  (s.matchLabels.all fun kv => getLabel pod kv.1 == some kv.2) &&
  (s.matchExpressions.all fun e => matchesExpr pod e)

/-- Join a list of character strings with a separator character. -/
def joinChar (c : Char) : List (List Char) → List Char
  | [] => []
  | [p] => p
  | p :: q :: rest => p ++ c :: joinChar c (q :: rest)

/-- Render one set-based requirement to the canonical grammar. -/
def renderExpr (e : MatchExpr) : List Char :=
  match e.op with
  | SelOp.opIn => e.key ++ (" in (".toList ++ (joinChar ',' e.values ++ [')']))
  | SelOp.opNotIn => e.key ++ (" notin (".toList ++ (joinChar ',' e.values ++ [')']))
  | SelOp.opExists => e.key
  | SelOp.opDoesNotExist => '!' :: e.key

/-- The rendered requirement strings of a selector: matchLabels equality
terms first, then the matchExpressions terms. -/
def termStrings (s : LabelSelector) : List (List Char) :=
  (s.matchLabels.map fun kv => kv.1 ++ '=' :: kv.2) ++ s.matchExpressions.map renderExpr

/-- Render a whole structured selector to the canonical selector-query
string (requirements joined by commas). -/
def renderSelector (s : LabelSelector) : List Char :=
  joinChar ',' (termStrings s)

/-- Modelled from the spec: `metav1.FormatLabelSelector` converts the
structured selector to its canonical string form. -/
def formatLabelSelector (s : LabelSelector) : List Char :=
  renderSelector s

/-- One requirement of the canonical label-selector string grammar, as
recovered by parsing. -/
inductive SelTerm where
  | termEq (k v : List Char)
  | termIn (k : List Char) (vs : List (List Char))
  | termNotIn (k : List Char) (vs : List (List Char))
  | termHas (k : List Char)
  | termNot (k : List Char)
deriving DecidableEq

/-- Find the first occurrence of `sep` in a string; return the text
before the occurrence and the text after it. -/
def splitFirstSub (sep : List Char) : List Char → Option (List Char × List Char)
  | [] => none
  | a :: rest =>
    if sep.isPrefixOf (a :: rest) then some ([], (a :: rest).drop sep.length)
    else
      match splitFirstSub sep rest with
      | some pr => some (a :: pr.1, pr.2)
      | none => none

/-- Split at every comma (used for the value list inside parentheses). -/
def splitCommaP : List Char → List Char × List (List Char)
  | [] => ([], [])
  | c :: rest =>
    if c = ',' then ([], (splitCommaP rest).1 :: (splitCommaP rest).2)
    else (c :: (splitCommaP rest).1, (splitCommaP rest).2)

def splitOnComma (l : List Char) : List (List Char) :=
  (splitCommaP l).1 :: (splitCommaP l).2

/-- Parse one requirement of the canonical grammar: `!key`, then
`key notin (v,...)`, then `key in (v,...)`, then `key=value`, else a bare
`key` existence requirement. -/
def parseTerm (t : List Char) : Option SelTerm :=
  if t = [] then none
  else if t.head? = some '!' then some (SelTerm.termNot t.tail)
  else
    match splitFirstSub " notin (".toList t with
    | some kr =>
      if kr.2.getLast? = some ')' then
        some (SelTerm.termNotIn kr.1 (splitOnComma kr.2.dropLast))
      else none
    | none =>
      match splitFirstSub " in (".toList t with
      | some kr =>
        if kr.2.getLast? = some ')' then
          some (SelTerm.termIn kr.1 (splitOnComma kr.2.dropLast))
        else none
      | none =>
        match splitFirstSub ['='] t with
        | some kv => some (SelTerm.termEq kv.1 kv.2)
        | none => some (SelTerm.termHas t)

/-- Semantics of one parsed requirement over a pod's labels (same
operator semantics as the structured side). -/
def evalTerm (pod : Labels) : SelTerm → Bool
  | SelTerm.termEq k v => getLabel pod k == some v
  | SelTerm.termIn k vs =>
    match getLabel pod k with
    | some v => vs.contains v
    | none => false
  | SelTerm.termNotIn k vs =>
    match getLabel pod k with
    | some v => !(vs.contains v)
    | none => true
  | SelTerm.termHas k => (getLabel pod k).isSome
  | SelTerm.termNot k => (getLabel pod k).isNone

/-- Parenthesis depth update for one character. -/
def stepDepth (d : Nat) (c : Char) : Nat :=
  if c = '(' then d + 1 else if c = ')' then d - 1 else d

/-- Split a selector string at the commas that sit at parenthesis depth 0
(commas inside a parenthesised value list belong to their requirement). -/
def splitTop (d : Nat) : List Char → List Char × List (List Char)
  | [] => ([], [])
  | c :: rest =>
    if c = ',' ∧ d = 0 then ([], (splitTop 0 rest).1 :: (splitTop 0 rest).2)
    else (c :: (splitTop (stepDepth d c) rest).1, (splitTop (stepDepth d c) rest).2)

def splitSelector (s : List Char) : List (List Char) :=
  (splitTop 0 s).1 :: (splitTop 0 s).2

/-- Filtering by a selector-query string: split it into requirements,
parse each, and require every requirement to hold of the pod (an
unparsable requirement selects nothing). -/
def evalSelectorString (s : List Char) (pod : Labels) : Bool :=
  (splitSelector s).all fun t =>
    match parseTerm t with
    | some tm => evalTerm pod tm
    | none => false

/-- Final parenthesis depth after scanning a string from depth `d`. -/
def finalDepth : Nat → List Char → Nat
  | d, [] => d
  | d, c :: r => finalDepth (stepDepth d c) r

/-- No comma of the string sits at parenthesis depth 0 when scanning from
depth `d`. -/
def noTopComma : Nat → List Char → Bool
  | _, [] => true
  | d, c :: r => if c = ',' ∧ d = 0 then false else noTopComma (stepDepth d c) r

/-- Characters with a syntactic role in the grammar; label keys and
values consist of other characters. -/
def plainChar (c : Char) : Bool :=
  !(c == ',' || c == ' ' || c == '(' || c == ')' || c == '=' || c == '!')

def plainStr (l : List Char) : Bool := l.all plainChar

def wfExpr (e : MatchExpr) : Bool :=
  (!e.key.isEmpty) && (plainStr e.key && ((e.values.all plainStr) &&
    match e.op with
    | SelOp.opIn => !e.values.isEmpty
    | SelOp.opNotIn => !e.values.isEmpty
    | _ => true))

/-- Well-formedness of a structured selector: nonempty keys, keys and
values free of grammar characters, nonempty value lists for In/NotIn, and
at least one requirement (the API server validates all of this for stored
selectors). -/
def wfSelector (s : LabelSelector) : Bool :=
  (s.matchLabels.all fun kv => (!kv.1.isEmpty) && (plainStr kv.1 && plainStr kv.2)) &&
  ((s.matchExpressions.all wfExpr) &&
    !(s.matchLabels.isEmpty && s.matchExpressions.isEmpty))

/-- The parsed requirement a matchLabels entry renders to. -/
def matchLabelTerm (kv : List Char × List Char) : SelTerm :=
  SelTerm.termEq kv.1 kv.2

/-- The parsed requirement a matchExpressions entry renders to. -/
def exprTerm (e : MatchExpr) : SelTerm :=
  match e.op with
  | SelOp.opIn => SelTerm.termIn e.key e.values
  | SelOp.opNotIn => SelTerm.termNotIn e.key e.values
  | SelOp.opExists => SelTerm.termHas e.key
  | SelOp.opDoesNotExist => SelTerm.termNot e.key

/-! ## Data model of the run (from src/main.go) -/

/-- One pod as observed via the Pods API; the run only uses its name and
namespace. -/
structure Pod where
  name : String
  ns : String
deriving DecidableEq

/-- One deployment as observed via the Deployments API; the run only uses
its name and its structured label selector. -/
structure Deployment where
  name : String
  selector : LabelSelector
deriving DecidableEq

/-- Go struct PodDetails (src/main.go:29). -/
structure PodDetails where
  Name : String
  RestartedOn : String
deriving DecidableEq

/-- Go struct DeploymentDetails (src/main.go:25). -/
structure DeploymentDetails where
  Name : String
  Pods : List PodDetails
deriving DecidableEq

/-- The zero value of DeploymentDetails (Go: `var output DeploymentDetails`). -/
def emptyDetails : DeploymentDetails := { Name := "", Pods := [] }

/-- One API call issued by the run, in order. -/
inductive ApiEvent where
  | listDeployments
  | listPods (selector : List Char)
  | patchDeployment (ns : String) (name : String) (body : String)
deriving DecidableEq

/-- The environment standing for the authenticated cluster API client and
the wall clock:
- `deployments`: outcome of the cluster-wide Deployments list call;
- `pods`: outcome of a cluster-wide Pods list call, keyed by the label
  selector string passed in ListOptions;
- `patch`: outcome of a Deployments patch call (namespace, name, body);
  `none` means success (the returned Deployment object is discarded by
  the code);
- `clock`: the value of the i-th `time.Now().UTC().Format(time.RFC3339)`
  reading of the run. -/
structure ClusterEnv where
  deployments : Except String (List Deployment)
  pods : List Char → Except String (List Pod)
  patch : String → String → String → Option String
  clock : Nat → String

/-- The merge-patch document built by the code (src/main.go:121), byte for
byte: only `spec.template.metadata.annotations.restarted_at` is set. -/
def patchBody (ts : String) : String :=
  "\x7b\"spec\":\x7b\"template\":\x7b\"metadata\":\x7b\"annotations\":\x7b\"restarted_at\":\"" ++ ts ++ "\"\x7d\x7d\x7d\x7d\x7d"

/-- Error message of a failed Deployments list call (src/main.go:104). -/
def listDeploymentsErrMsg (e : String) : String :=
  "failed to list deployment: " ++ e

/-- Error message of a failed Pods list call (src/main.go:116). -/
def podListErrMsg (d e : String) : String :=
  "failed to list pods for deployment " ++ d ++ ": " ++ e

/-- Error message of a failed patch call (src/main.go:124). -/
def patchErrMsg (d p e : String) : String :=
  "failed to patch deployment " ++ d ++ " for pod " ++ p ++ ": " ++ e

/-- Go's `strings.Contains(s, sub)`: does `s` contain `sub` as a
(case-sensitive, literal) substring? -/
def containsSubstring (s sub : List Char) : Bool :=
  match s with
  | [] => sub.isEmpty
  | c :: rest => sub.isPrefixOf (c :: rest) || containsSubstring rest sub

/-- The literal filtered for (src/main.go:108). -/
def databaseSub : List Char := "database".toList

/-- Go map assignment `m[k] = v`: replace the value if the key is present
(position kept), otherwise append the new binding. -/
def insertReplace (m : List (String × List Char)) (k : String) (v : List Char) :
    List (String × List Char) :=
  if m.any fun e => e.1 == k then
    m.map fun e => if e.1 == k then (k, v) else e
  else
    m ++ [(k, v)]

/-- One iteration of the discovery loop body (src/main.go:107-111): a
deployment whose name contains "database" is entered into the map under
its name, with its formatted label selector as value. -/
def mapStep (m : List (String × List Char)) (d : Deployment) : List (String × List Char) :=
  if containsSubstring d.name.toList databaseSub then
    insertReplace m d.name (formatLabelSelector d.selector)
  else m

/-- The `deploymentsMap` built at src/main.go:106-111: name-keyed map from
matched deployment name to its formatted label selector. -/
def buildDeploymentsMap (ds : List Deployment) : List (String × List Char) :=
  ds.foldl mapStep []

/-- The inner pod loop (src/main.go:119-131): for each pod, read the
clock, build the patch body, issue the patch in the pod's namespace, and
on success append the pod's outcome; on failure return the accumulated
output with the error.  Returns (output, error, next clock index, trace). -/
def podLoop (env : ClusterEnv) (deploymentName : String) :
    List Pod → Nat → DeploymentDetails → List ApiEvent →
    DeploymentDetails × Option String × Nat × List ApiEvent
  | [], idx, acc, tr => (acc, none, idx, tr)
  | pod :: rest, idx, acc, tr =>
    match env.patch pod.ns deploymentName (patchBody (env.clock idx)) with
    | some e =>
      (acc, some (patchErrMsg deploymentName pod.name e), idx + 1,
        tr ++ [ApiEvent.patchDeployment pod.ns deploymentName (patchBody (env.clock idx))])
    | none =>
      podLoop env deploymentName rest (idx + 1)
        { acc with Pods := acc.Pods ++ [{ Name := pod.name, RestartedOn := env.clock idx }] }
        (tr ++ [ApiEvent.patchDeployment pod.ns deploymentName (patchBody (env.clock idx))])

/-- The outer deployment loop (src/main.go:113-133): for each map entry,
list the pods for its selector (abort with an error naming the deployment
if that fails), set the aggregate Name, then run the pod loop. -/
def deployLoop (env : ClusterEnv) :
    List (String × List Char) → Nat → DeploymentDetails → List ApiEvent →
    DeploymentDetails × Option String × Nat × List ApiEvent
  | [], idx, acc, tr => (acc, none, idx, tr)
  | (dName, sel) :: rest, idx, acc, tr =>
    match env.pods sel with
    | Except.error e =>
      (acc, some (podListErrMsg dName e), idx, tr ++ [ApiEvent.listPods sel])
    | Except.ok ps =>
      match podLoop env dName ps idx { acc with Name := dName } (tr ++ [ApiEvent.listPods sel]) with
      | (acc2, some e, idx2, tr2) => (acc2, some e, idx2, tr2)
      | (acc2, none, idx2, tr2) => deployLoop env rest idx2 acc2 tr2

/-- The whole of `redeployDatabasePods` (src/main.go:100-135), returning
the Go pair (DeploymentDetails, error) plus the ordered API-call trace. -/
def redeployDatabasePods (env : ClusterEnv) :
    DeploymentDetails × Option String × List ApiEvent :=
  match env.deployments with
  | Except.error e =>
    (emptyDetails, some (listDeploymentsErrMsg e), [ApiEvent.listDeployments])
  | Except.ok ds =>
    match deployLoop env (buildDeploymentsMap ds) 0 emptyDetails [ApiEvent.listDeployments] with
    | (out, err, _, tr) => (out, err, tr)

/-- The deployments the run saw (empty when the list call failed; only
used to state properties of successful runs, where the list call
necessarily succeeded). -/
def listedDeployments (env : ClusterEnv) : List Deployment :=
  match env.deployments with
  | Except.ok ds => ds
  | Except.error _ => []

/-- The pods the run saw for a selector (empty when the list call failed;
only used to state properties of calls that succeeded). -/
def listedPods (env : ClusterEnv) (sel : List Char) : List Pod :=
  match env.pods sel with
  | Except.ok ps => ps
  | Except.error _ => []

/-! ## Expected (declarative) views of a successful run -/

/-- The pod outcomes one deployment's pod loop produces, starting at clock
index `idx`: one outcome per listed pod, each with its own fresh clock
reading. -/
def podOutcomes (clock : Nat → String) (idx : Nat) : List Pod → List PodDetails
  | [] => []
  | p :: ps => { Name := p.name, RestartedOn := clock idx } :: podOutcomes clock (idx + 1) ps

/-- The flattened pod outcomes of processing a list of map entries. -/
def runOutcomes (env : ClusterEnv) (idx : Nat) : List (String × List Char) → List PodDetails
  | [] => []
  | (_, sel) :: rest =>
    podOutcomes env.clock idx (listedPods env sel) ++
      runOutcomes env (idx + (listedPods env sel).length) rest

/-- The patch calls one deployment's pod loop issues, starting at clock
index `idx`: one per listed pod, in the pod's namespace. -/
def podPatchEvents (clock : Nat → String) (dName : String) (idx : Nat) :
    List Pod → List ApiEvent
  | [] => []
  | p :: ps =>
    ApiEvent.patchDeployment p.ns dName (patchBody (clock idx)) ::
      podPatchEvents clock dName (idx + 1) ps

/-- The API calls a successful processing of a list of map entries issues. -/
def deployTrace (env : ClusterEnv) (idx : Nat) : List (String × List Char) → List ApiEvent
  | [] => []
  | (dName, sel) :: rest =>
    ApiEvent.listPods sel ::
      (podPatchEvents env.clock dName idx (listedPods env sel) ++
        deployTrace env (idx + (listedPods env sel).length) rest)

/-- The deployment names targeted by the patch calls of a trace, in order. -/
def patchNames : List ApiEvent → List String
  | [] => []
  | ApiEvent.patchDeployment _ n _ :: tr => n :: patchNames tr
  | _ :: tr => patchNames tr

/-- The predicate a deployment must satisfy for its selector to end up
under key `D` of the discovery map: its name contains "database" and
equals `D`. -/
def matchedAs (D : String) (d : Deployment) : Bool :=
  containsSubstring d.name.toList databaseSub && d.name == D

/-- An API event whose patch body (if it is a patch call) is the code's
merge-patch document at some clock reading. -/
def patchShaped (env : ClusterEnv) (ev : ApiEvent) : Prop :=
  ∀ ns n body, ev = ApiEvent.patchDeployment ns n body → ∃ i, body = patchBody (env.clock i)

/-! ## Concrete scenarios -/

/-- A one-term selector `app=<v>`. -/
def selApp (v : String) : LabelSelector := ⟨[("app".toList, v.toList)], []⟩

/-- One matched deployment whose selector matches two pods; every patch
succeeds. -/
def envTwoPods : ClusterEnv :=
  ⟨Except.ok [⟨"database-a", selApp "a"⟩],
   fun sel =>
     if sel = formatLabelSelector (selApp "a") then
       Except.ok [⟨"pod-a1", "ns1"⟩, ⟨"pod-a2", "ns2"⟩]
     else Except.ok [],
   fun _ _ _ => none,
   fun i => "t" ++ toString i⟩

/-- Two matched deployments; the first is processed (one pod, patch ok),
the second's pod-list call fails. -/
def envPartial : ClusterEnv :=
  ⟨Except.ok [⟨"database-a", selApp "a"⟩, ⟨"database-b", selApp "b"⟩],
   fun sel =>
     if sel = formatLabelSelector (selApp "a") then Except.ok [⟨"pod-a1", "ns1"⟩]
     else Except.error "boom",
   fun _ _ _ => none,
   fun i => "t" ++ toString i⟩

/-- Three matched deployments; the middle one's pod-list call fails (the
fail-fast scenario of the spec). -/
def envFailFast : ClusterEnv :=
  ⟨Except.ok [⟨"database-primary", selApp "p"⟩, ⟨"database-second", selApp "s"⟩,
    ⟨"database-third", selApp "t"⟩],
   fun sel =>
     if sel = formatLabelSelector (selApp "p") then Except.ok [⟨"pod-p1", "ns1"⟩]
     else if sel = formatLabelSelector (selApp "s") then Except.error "boom"
     else Except.ok [⟨"pod-t1", "ns1"⟩],
   fun _ _ _ => none,
   fun i => "t" ++ toString i⟩

/-- Every patch call fails. -/
def envPatchFail : ClusterEnv :=
  ⟨Except.ok [⟨"database-a", selApp "a"⟩],
   fun _ => Except.ok [⟨"pod-a1", "ns1"⟩],
   fun _ _ _ => some "denied",
   fun i => "t" ++ toString i⟩

/-- One matched deployment whose selector matches no pods. -/
def envNoPods : ClusterEnv :=
  ⟨Except.ok [⟨"database-a", selApp "a"⟩],
   fun _ => Except.ok [],
   fun _ _ _ => none,
   fun i => "t" ++ toString i⟩

/-- The deployments used by the name-filter witness. -/
def dsFilter : List Deployment := [⟨"database-a", selApp "a"⟩, ⟨"cache", selApp "c"⟩]

/-- The spec's sample structured selector
`matchLabels app=db, matchExpressions tier In (primary, replica)`. -/
def selRound : LabelSelector :=
  ⟨[("app".toList, "db".toList)],
   [⟨"tier".toList, SelOp.opIn, ["primary".toList, "replica".toList]⟩]⟩

/-- A concrete pod label set satisfying `selRound`. -/
def podRound : Labels :=
  [("app".toList, "db".toList), ("tier".toList, "primary".toList)]

/-! ## Loop lemmas -/

theorem podOutcomes_length (clock : Nat → String) (idx : Nat) (ps : List Pod) :
    (podOutcomes clock idx ps).length = ps.length := by
  induction ps generalizing idx with
  | nil => rfl
  | cons p ps ih => simp [podOutcomes, ih]

theorem podOutcomes_names (clock : Nat → String) (idx : Nat) (ps : List Pod) :
    (podOutcomes clock idx ps).map (fun p => p.Name) = ps.map (fun p => p.name) := by
  induction ps generalizing idx with
  | nil => rfl
  | cons p ps ih => simp [podOutcomes, ih]

/-- A successful pod loop appends one outcome per pod (with successive
clock readings) and one patch event per pod. -/
theorem podLoop_ok (env : ClusterEnv) (d : String) (ps : List Pod) (idx : Nat)
    (acc acc2 : DeploymentDetails) (tr tr2 : List ApiEvent) (idx2 : Nat)
    (h : podLoop env d ps idx acc tr = (acc2, none, idx2, tr2)) :
    acc2 = { acc with Pods := acc.Pods ++ podOutcomes env.clock idx ps } ∧
      idx2 = idx + ps.length ∧ tr2 = tr ++ podPatchEvents env.clock d idx ps := by
  induction ps generalizing idx acc tr with
  | nil =>
    simp only [podLoop, Prod.mk.injEq] at h
    obtain ⟨h1, _, h2, h3⟩ := h
    subst h1; subst h2; subst h3
    simp [podOutcomes, podPatchEvents]
  | cons p ps ih =>
    simp only [podLoop] at h
    cases hp : env.patch p.ns d (patchBody (env.clock idx)) with
    | some e =>
      rw [hp] at h
      simp at h
    | none =>
      rw [hp] at h
      obtain ⟨e1, e2, e3⟩ := ih (idx + 1)
        { acc with Pods := acc.Pods ++ [{ Name := p.name, RestartedOn := env.clock idx }] }
        (tr ++ [ApiEvent.patchDeployment p.ns d (patchBody (env.clock idx))]) h
      refine ⟨?_, ?_, ?_⟩
      · rw [e1]
        simp [podOutcomes, List.append_assoc]
      · rw [e2]; simp; omega
      · rw [e3]
        simp [podPatchEvents, List.append_assoc]

/-- A successful deployment loop produces the last entry's name, the
flattened per-entry outcomes, and the per-entry trace. -/
theorem deployLoop_ok (env : ClusterEnv) (entries : List (String × List Char)) (idx : Nat)
    (acc acc2 : DeploymentDetails) (tr tr2 : List ApiEvent) (idx2 : Nat)
    (h : deployLoop env entries idx acc tr = (acc2, none, idx2, tr2)) :
    acc2.Name = (entries.map Prod.fst).getLastD acc.Name ∧
      acc2.Pods = acc.Pods ++ runOutcomes env idx entries ∧
      tr2 = tr ++ deployTrace env idx entries := by
  induction entries generalizing idx acc tr with
  | nil =>
    simp only [deployLoop, Prod.mk.injEq] at h
    obtain ⟨h1, _, _, h3⟩ := h
    subst h1; subst h3
    simp [runOutcomes, deployTrace]
  | cons e rest ih =>
    obtain ⟨dName, sel⟩ := e
    rw [deployLoop] at h
    split at h
    next err hp => simp at h
    next ps hp =>
      split at h
      next acc3 e3 idx3 tr3 hq => simp at h
      next acc3 idx3 tr3 hq =>
        obtain ⟨q1, q2, q3⟩ := podLoop_ok _ _ _ _ _ _ _ _ _ hq
        obtain ⟨r1, r2, r3⟩ := ih idx3 acc3 tr3 h
        have hl : listedPods env sel = ps := by simp [listedPods, hp]
        refine ⟨?_, ?_, ?_⟩
        · rw [r1, q1, List.map_cons, List.getLastD_cons]
        · rw [r2, q2, q1]
          simp [runOutcomes, hl, List.append_assoc]
        · rw [r3, q3, q2]
          simp [deployTrace, hl, List.append_assoc]

/-- Processing `l1 ++ l2` first processes `l1`; if that succeeds the loop
continues with `l2` from the reached state. -/
theorem deployLoop_append_ok (env : ClusterEnv) (l1 l2 : List (String × List Char))
    (idx : Nat) (acc a : DeploymentDetails) (tr t : List ApiEvent) (i : Nat)
    (h : deployLoop env l1 idx acc tr = (a, none, i, t)) :
    deployLoop env (l1 ++ l2) idx acc tr = deployLoop env l2 i a t := by
  induction l1 generalizing idx acc tr with
  | nil =>
    simp only [deployLoop, Prod.mk.injEq] at h
    obtain ⟨h1, _, h2, h3⟩ := h
    subst h1; subst h2; subst h3
    simp
  | cons e rest ih =>
    obtain ⟨dName, sel⟩ := e
    rw [deployLoop] at h
    split at h
    next err hp => simp at h
    next ps hp =>
      split at h
      next acc3 e3 idx3 tr3 hq => simp at h
      next acc3 idx3 tr3 hq =>
        rw [List.cons_append, deployLoop]
        simp only [hp, hq]
        exact ih idx3 acc3 tr3 h

/-! ## Discovery-map lemmas -/

theorem lookup_map_replace_self (m : List (String × List Char)) (k : String) (v : List Char) :
    (m.map fun e => if e.1 == k then (k, v) else e).lookup k =
      if m.any fun e => e.1 == k then some v else none := by
  induction m with
  | nil => rfl
  | cons e m ih =>
    obtain ⟨k1, v1⟩ := e
    rw [List.map_cons, List.any_cons]
    by_cases h : k1 = k
    · subst h
      rw [if_pos (by simp : ((k1, v1).1 == k1) = true)]
      rw [List.lookup_cons]
      have hb : (k1 == k1) = true := by simp
      simp only [hb]
      rw [if_pos (by simp)]
    · have hb : ((k1, v1).1 == k) = false := by simp [h]
      have hb' : (k == k1) = false := by simp [Ne.symm h]
      rw [if_neg (by simp [hb]), List.lookup_cons]
      simp only [hb', hb, Bool.false_or]
      exact ih

theorem lookup_map_replace_ne (m : List (String × List Char)) (k : String) (v : List Char)
    (k' : String) (h : k' ≠ k) :
    (m.map fun e => if e.1 == k then (k, v) else e).lookup k' = m.lookup k' := by
  induction m with
  | nil => rfl
  | cons e m ih =>
    obtain ⟨k1, v1⟩ := e
    rw [List.map_cons]
    by_cases h1 : k1 = k
    · subst h1
      rw [if_pos (by simp : ((k1, v1).1 == k1) = true)]
      rw [List.lookup_cons, List.lookup_cons]
      have hb : (k' == k1) = false := by simp [h]
      simp only [hb]
      exact ih
    · rw [if_neg (by simp [h1] : ¬((k1, v1).1 == k) = true)]
      rw [List.lookup_cons, List.lookup_cons]
      cases hkk : k' == k1 with
      | false => simp only [hkk]; exact ih
      | true => simp only [hkk]

theorem lookup_append_pairs (m l : List (String × List Char)) (k : String) :
    (m ++ l).lookup k =
      match m.lookup k with
      | some v => some v
      | none => l.lookup k := by
  induction m with
  | nil => rfl
  | cons e m ih =>
    obtain ⟨k1, v1⟩ := e
    by_cases h : k = k1
    · simp [List.lookup_cons, h]
    · have hb : (k == k1) = false := by simp [h]
      simp [List.lookup_cons, hb, ih]

theorem lookup_eq_none_of_not_any (m : List (String × List Char)) (k : String)
    (h : (m.any fun e => e.1 == k) = false) : m.lookup k = none := by
  induction m with
  | nil => rfl
  | cons e m ih =>
    obtain ⟨k1, v1⟩ := e
    rw [List.any_cons, Bool.or_eq_false_iff] at h
    rw [List.lookup_cons]
    have hb : (k == k1) = false := by
      have h1 : ((k1, v1).1 == k) = false := h.1
      rw [beq_eq_false_iff_ne] at h1 ⊢
      exact fun hc => h1 (by simp [hc])
    simp only [hb]
    exact ih h.2

/-- Go map assignment: after `m[k] = v`, looking up `k` gives `v` and any
other key is unchanged. -/
theorem insertReplace_lookup (m : List (String × List Char)) (k : String) (v : List Char)
    (k' : String) :
    (insertReplace m k v).lookup k' = if k' = k then some v else m.lookup k' := by
  unfold insertReplace
  by_cases h : k' = k
  · subst h
    split
    next hany => rw [lookup_map_replace_self, if_pos hany, if_pos rfl]
    next hany =>
      rw [lookup_append_pairs, if_pos rfl]
      rw [lookup_eq_none_of_not_any m k' (Bool.eq_false_iff.mpr hany)]
      rw [List.lookup_cons]
      have hb : (k' == k') = true := by simp
      simp only [hb]
  · rw [if_neg h]
    split
    next hany => exact lookup_map_replace_ne m k v k' h
    next hany =>
      rw [lookup_append_pairs]
      cases hm : m.lookup k' with
      | some v1 => rfl
      | none =>
        rw [List.lookup_cons]
        have hb : (k' == k) = false := by simp [h]
        simp only [hb]
        rfl

/-- Discovery keys deployments by name alone, last write wins: the map's
value under key `D` is the formatted selector of the last listed matching
deployment named `D`. -/
theorem buildDeploymentsMap_lookup (ds : List Deployment) (D : String) :
    (buildDeploymentsMap ds).lookup D =
      ((ds.filter (matchedAs D)).getLast?).map fun d => formatLabelSelector d.selector := by
  induction ds using List.reverseRecOn with
  | nil => rfl
  | append_singleton ds d ih =>
    have hfold : buildDeploymentsMap (ds ++ [d]) = mapStep (buildDeploymentsMap ds) d :=
      List.foldl_concat mapStep [] d ds
    rw [hfold, List.filter_append, mapStep]
    by_cases hc : containsSubstring d.name.toList databaseSub = true
    · rw [if_pos hc]
      rw [insertReplace_lookup]
      by_cases hn : D = d.name
      · have hp : matchedAs D d = true := by
          rw [matchedAs, hc]
          simp [hn]
        rw [if_pos hn]
        have hfd : List.filter (matchedAs D) [d] = [d] := by
          rw [List.filter_cons, if_pos hp]
          rfl
        rw [hfd, List.getLast?_concat]
        rfl
      · have hp : matchedAs D d = false := by
          rw [matchedAs, hc]
          simp only [Bool.true_and, beq_eq_false_iff_ne]
          exact fun hc2 => hn hc2.symm
        rw [if_neg hn, ih]
        have hfd : List.filter (matchedAs D) [d] = [] := by
          rw [List.filter_cons, if_neg (by simp [hp])]
          rfl
        rw [hfd, List.append_nil]
    · have hc' : containsSubstring d.name.toList databaseSub = false :=
        Bool.eq_false_iff.mpr hc
      have hp : matchedAs D d = false := by
        rw [matchedAs, hc']
        rfl
      rw [if_neg hc, ih]
      have hfd : List.filter (matchedAs D) [d] = [] := by
        rw [List.filter_cons, if_neg (by simp [hp])]
        rfl
      rw [hfd, List.append_nil]

theorem insertReplace_keys_nodup (m : List (String × List Char)) (k : String) (v : List Char)
    (h : (m.map Prod.fst).Nodup) : ((insertReplace m k v).map Prod.fst).Nodup := by
  unfold insertReplace
  split
  next hany =>
    have hkeys : (m.map fun e => if e.1 == k then (k, v) else e).map Prod.fst = m.map Prod.fst := by
      rw [List.map_map]
      refine List.map_congr_left fun e he => ?_
      by_cases h1 : e.1 = k
      · simp [Function.comp, h1]
      · simp [Function.comp, h1]
    rw [hkeys]; exact h
  next hany =>
    rw [List.map_append, List.nodup_append]
    refine ⟨h, by simp, ?_⟩
    intro a ha hb
    simp only [List.map_cons, List.map_nil, List.mem_singleton] at hb
    subst hb
    simp only [List.mem_map] at ha
    obtain ⟨e, he, hek⟩ := ha
    exact hany (List.any_eq_true.mpr ⟨e, he, by simp [hek]⟩)

/-- The discovery map has no duplicate keys: identically named matching
deployments collapse into one entry. -/
theorem buildDeploymentsMap_keys_nodup (ds : List Deployment) :
    ((buildDeploymentsMap ds).map Prod.fst).Nodup := by
  suffices h : ∀ m : List (String × List Char),
      (m.map Prod.fst).Nodup → ((ds.foldl mapStep m).map Prod.fst).Nodup by
    exact h [] (by simp)
  induction ds with
  | nil => exact fun m hm => hm
  | cons d ds ih =>
    intro m hm
    rw [List.foldl_cons]
    refine ih (mapStep m d) ?_
    unfold mapStep
    split
    · exact insertReplace_keys_nodup m d.name (formatLabelSelector d.selector) hm
    · exact hm

/-- Go's `strings.Contains` agrees with the mathematical substring
relation. -/
theorem containsSubstring_spec (s sub : List Char) :
    containsSubstring s sub = true ↔ sub <:+: s := by
  induction s with
  | nil =>
    rw [containsSubstring]
    simp [List.isEmpty_iff, List.infix_nil]
  | cons c rest ih =>
    rw [containsSubstring, Bool.or_eq_true, List.isPrefixOf_iff_prefix, ih,
      List.infix_cons_iff]

theorem lookup_isSome_iff_mem_keys (m : List (String × List Char)) (k : String) :
    (m.lookup k).isSome = true ↔ k ∈ m.map Prod.fst := by
  induction m with
  | nil => simp [List.lookup]
  | cons e m ih =>
    obtain ⟨k1, v1⟩ := e
    by_cases h : k = k1
    · simp [List.lookup_cons, h]
    · have hb : (k == k1) = false := by simp [h]
      simp [List.lookup_cons, hb, ih, h]

/-! ## Trace lemmas -/

theorem patchNames_cons_listPods (sel : List Char) (tr : List ApiEvent) :
    patchNames (ApiEvent.listPods sel :: tr) = patchNames tr := rfl

theorem patchNames_cons_patch (ns n body : String) (tr : List ApiEvent) :
    patchNames (ApiEvent.patchDeployment ns n body :: tr) = n :: patchNames tr := rfl

theorem patchNames_append (t1 t2 : List ApiEvent) :
    patchNames (t1 ++ t2) = patchNames t1 ++ patchNames t2 := by
  induction t1 with
  | nil => rfl
  | cons ev tr ih => cases ev <;> simp [patchNames, ih]

theorem patchNames_podPatchEvents (clock : Nat → String) (d : String) (idx : Nat)
    (ps : List Pod) :
    patchNames (podPatchEvents clock d idx ps) = List.replicate ps.length d := by
  induction ps generalizing idx with
  | nil => rfl
  | cons p ps ih =>
    rw [podPatchEvents, patchNames_cons_patch, List.length_cons, List.replicate_succ, ih]

/-- Every deployment name a trace of processed entries patches is the key
of one of those entries. -/
theorem mem_patchNames_deployTrace (env : ClusterEnv) (idx : Nat)
    (entries : List (String × List Char)) (n : String)
    (h : n ∈ patchNames (deployTrace env idx entries)) : n ∈ entries.map Prod.fst := by
  induction entries generalizing idx with
  | nil => simp [deployTrace, patchNames] at h
  | cons e rest ih =>
    obtain ⟨dName, sel⟩ := e
    rw [deployTrace, patchNames_cons_listPods, patchNames_append,
      patchNames_podPatchEvents, List.mem_append] at h
    rw [List.map_cons]
    rcases h with h | h
    · have hd := List.eq_of_mem_replicate h
      rw [hd]
      exact List.mem_cons_self _ _
    · exact List.mem_cons_of_mem _ (ih _ h)

/-- With nodup keys, the number of patch calls issued for entry `(D, sel)`
is exactly the number of pods listed for `sel`. -/
theorem count_patchNames_deployTrace (env : ClusterEnv) (idx : Nat)
    (entries : List (String × List Char)) (D : String) (sel : List Char)
    (hnd : (entries.map Prod.fst).Nodup) (hmem : (D, sel) ∈ entries) :
    (patchNames (deployTrace env idx entries)).count D = (listedPods env sel).length := by
  induction entries generalizing idx with
  | nil => simp at hmem
  | cons e rest ih =>
    obtain ⟨d0, sel0⟩ := e
    rw [List.map_cons, List.nodup_cons] at hnd
    rw [deployTrace, patchNames_cons_listPods, patchNames_append,
      patchNames_podPatchEvents, List.count_append]
    rcases List.mem_cons.mp hmem with heq | htail
    · have h1 : D = d0 := congrArg Prod.fst heq
      have h2 : sel = sel0 := congrArg Prod.snd heq
      subst h1; subst h2
      have hz : (patchNames (deployTrace env (idx + (listedPods env sel).length) rest)).count D
          = 0 := by
        rw [List.count_eq_zero]
        exact fun hmem2 => hnd.1 (mem_patchNames_deployTrace _ _ _ _ hmem2)
      rw [hz, List.count_replicate, if_pos (by simp), Nat.add_zero]
    · have hDmem : D ∈ rest.map Prod.fst := List.mem_map.mpr ⟨(D, sel), htail, rfl⟩
      have hne : ¬(d0 == D) = true := by
        rw [beq_iff_eq]
        exact fun hc => hnd.1 (hc ▸ hDmem)
      rw [List.count_replicate, if_neg hne, ih _ hnd.2 htail, Nat.zero_add]

theorem podLoop_patchShaped (env : ClusterEnv) (d : String) (ps : List Pod) (idx : Nat)
    (acc : DeploymentDetails) (tr : List ApiEvent)
    (h : ∀ ev ∈ tr, patchShaped env ev) :
    ∀ ev ∈ (podLoop env d ps idx acc tr).2.2.2, patchShaped env ev := by
  induction ps generalizing idx acc tr with
  | nil => exact h
  | cons p ps ih =>
    have hstep : ∀ ev ∈ tr ++ [ApiEvent.patchDeployment p.ns d (patchBody (env.clock idx))],
        patchShaped env ev := by
      intro ev hev
      rcases List.mem_append.mp hev with h1 | h1
      · exact h ev h1
      · rw [List.mem_singleton] at h1
        subst h1
        intro ns n body heq
        cases heq
        exact ⟨idx, rfl⟩
    intro ev hev
    rw [podLoop] at hev
    split at hev
    next e hp => exact hstep ev hev
    next hp => exact ih (idx + 1) _ _ hstep ev hev

theorem deployLoop_patchShaped (env : ClusterEnv) (entries : List (String × List Char))
    (idx : Nat) (acc : DeploymentDetails) (tr : List ApiEvent)
    (h : ∀ ev ∈ tr, patchShaped env ev) :
    ∀ ev ∈ (deployLoop env entries idx acc tr).2.2.2, patchShaped env ev := by
  induction entries generalizing idx acc tr with
  | nil => exact h
  | cons e rest ih =>
    obtain ⟨dName, sel⟩ := e
    have hstep : ∀ ev ∈ tr ++ [ApiEvent.listPods sel], patchShaped env ev := by
      intro ev hev
      rcases List.mem_append.mp hev with h1 | h1
      · exact h ev h1
      · rw [List.mem_singleton] at h1
        subst h1
        intro ns n body heq
        cases heq
    intro ev hev
    rw [deployLoop] at hev
    split at hev
    next er hp => exact hstep ev hev
    next ps hp =>
      split at hev
      next acc3 e3 idx3 tr3 hq =>
        have := podLoop_patchShaped env dName ps idx { acc with Name := dName }
          (tr ++ [ApiEvent.listPods sel]) hstep
        rw [hq] at this
        exact this ev hev
      next acc3 idx3 tr3 hq =>
        have hmid := podLoop_patchShaped env dName ps idx { acc with Name := dName }
          (tr ++ [ApiEvent.listPods sel]) hstep
        rw [hq] at hmid
        exact ih idx3 acc3 tr3 hmid ev hev

/-! ## Outcome lemmas -/

theorem runOutcomes_names (env : ClusterEnv) (idx : Nat)
    (entries : List (String × List Char)) :
    (runOutcomes env idx entries).map (fun p => p.Name) =
      entries.flatMap fun e => (listedPods env e.2).map fun p => p.name := by
  induction entries generalizing idx with
  | nil => rfl
  | cons e rest ih =>
    obtain ⟨d, sel⟩ := e
    rw [runOutcomes, List.flatMap_cons, List.map_append, podOutcomes_names, ih]

theorem podOutcomes_restartedOn (clock : Nat → String) (idx : Nat) (ps : List Pod)
    (i : Nat) (h : i < (podOutcomes clock idx ps).length) :
    (podOutcomes clock idx ps)[i].RestartedOn = clock (idx + i) := by
  induction ps generalizing idx i with
  | nil => simp [podOutcomes] at h
  | cons p ps ih =>
    cases i with
    | zero => simp [podOutcomes]
    | succ i =>
      have h' : i < (podOutcomes clock (idx + 1) ps).length := by
        rw [podOutcomes_length]
        rw [podOutcomes_length, List.length_cons] at h
        omega
      simp only [podOutcomes, List.getElem_cons_succ]
      rw [ih (idx + 1) i h']
      congr 1
      omega

theorem runOutcomes_restartedOn (env : ClusterEnv) (idx : Nat)
    (entries : List (String × List Char)) (i : Nat)
    (h : i < (runOutcomes env idx entries).length) :
    (runOutcomes env idx entries)[i].RestartedOn = env.clock (idx + i) := by
  induction entries generalizing idx i with
  | nil => simp [runOutcomes] at h
  | cons e rest ih =>
    obtain ⟨d, sel⟩ := e
    simp only [runOutcomes] at h ⊢
    by_cases hi : i < (podOutcomes env.clock idx (listedPods env sel)).length
    · rw [List.getElem_append_left hi]
      exact podOutcomes_restartedOn _ _ _ _ hi
    · push_neg at hi
      have hb : i - (podOutcomes env.clock idx (listedPods env sel)).length <
          (runOutcomes env (idx + (listedPods env sel).length) rest).length := by
        rw [List.length_append] at h
        omega
      rw [List.getElem_append_right hi, ih _ _ hb]
      rw [podOutcomes_length] at hi ⊢
      congr 1
      omega

theorem patchNames_cons_listDeployments (tr : List ApiEvent) :
    patchNames (ApiEvent.listDeployments :: tr) = patchNames tr := rfl

/-- What a successful run returns: the last map key as Name, the flattened
outcomes starting at clock index 0, and the listDeployments-prefixed
trace. -/
theorem run_ok_spec (env : ClusterEnv)
    (hok : (redeployDatabasePods env).2.1 = none) :
    (redeployDatabasePods env).1.Name =
      ((buildDeploymentsMap (listedDeployments env)).map Prod.fst).getLastD "" ∧
    (redeployDatabasePods env).1.Pods =
      runOutcomes env 0 (buildDeploymentsMap (listedDeployments env)) ∧
    (redeployDatabasePods env).2.2 =
      ApiEvent.listDeployments ::
        deployTrace env 0 (buildDeploymentsMap (listedDeployments env)) := by
  cases hd : env.deployments with
  | error e =>
    exfalso
    simp only [redeployDatabasePods, hd] at hok
    exact Option.noConfusion hok
  | ok ds =>
    have hds : listedDeployments env = ds := by simp [listedDeployments, hd]
    rw [hds]
    cases hq : deployLoop env (buildDeploymentsMap ds) 0 emptyDetails
        [ApiEvent.listDeployments] with
    | mk out r3 =>
      obtain ⟨err, idx2, tr2⟩ := r3
      simp only [redeployDatabasePods, hd, hq] at hok ⊢
      subst hok
      obtain ⟨h1, h2, h3⟩ := deployLoop_ok env (buildDeploymentsMap ds) 0 emptyDetails out
        [ApiEvent.listDeployments] tr2 idx2 hq
      exact ⟨h1, h2, h3⟩

/-! ## Claim theorems -/

/-- C1 counterexample: the claim "exactly one patch call per matched
Deployment" is false on the code.  In `envTwoPods` the single matched
Deployment `database-a` has two pods, and the run issues two patch calls
against it (the patch call sits inside the per-pod loop,
src/main.go:119-125). -/
theorem c1_counterexample :
    patchNames (redeployDatabasePods envTwoPods).2.2 = ["database-a", "database-a"] ∧
      (patchNames (redeployDatabasePods envTwoPods).2.2).length ≠ 1 := by
  constructor
  · rfl
  · decide

/-- C1 (amended): one merge-patch per listed pod — on a successful run,
the number of patch calls issued against a matched Deployment equals the
number of pods its selector matched. -/
theorem c1_one_patch_per_pod (env : ClusterEnv) (D : String) (sel : List Char)
    (hok : (redeployDatabasePods env).2.1 = none)
    (hmem : (D, sel) ∈ buildDeploymentsMap (listedDeployments env)) :
    (patchNames (redeployDatabasePods env).2.2).count D = (listedPods env sel).length := by
  obtain ⟨_, _, h3⟩ := run_ok_spec env hok
  rw [h3, patchNames_cons_listDeployments]
  exact count_patchNames_deployTrace env 0 _ D sel
    (buildDeploymentsMap_keys_nodup _) hmem

/-- C1 witness: in `envTwoPods`, deployment `database-a` gets exactly as
many patch calls as it has listed pods (two). -/
theorem c1_witness :
    (patchNames (redeployDatabasePods envTwoPods).2.2).count "database-a" =
      (listedPods envTwoPods (formatLabelSelector (selApp "a"))).length :=
  c1_one_patch_per_pod envTwoPods "database-a" (formatLabelSelector (selApp "a"))
    rfl (by decide)

/-- C2 counterexample: the claim "one timestamp per Deployment shared by
all its PodOutcomes" is false on the code.  In `envTwoPods` the single
matched Deployment's two PodOutcomes carry two different timestamps
("t0" and "t1"), because `time.Now()` is read inside the per-pod loop
(src/main.go:120). -/
theorem c2_counterexample :
    ((redeployDatabasePods envTwoPods).1.Pods.map fun p => p.RestartedOn) = ["t0", "t1"] ∧
      ("t0" : String) ≠ "t1" := by
  constructor
  · rfl
  · decide

/-- C2 (amended): a fresh timestamp is captured for every pod patch call —
on a successful run the i-th PodOutcome overall carries the i-th clock
reading of the run. -/
theorem c2_timestamp_per_pod (env : ClusterEnv) (i : Nat)
    (hok : (redeployDatabasePods env).2.1 = none)
    (hi : i < (redeployDatabasePods env).1.Pods.length) :
    (redeployDatabasePods env).1.Pods[i].RestartedOn = env.clock i := by
  obtain ⟨_, h2, _⟩ := run_ok_spec env hok
  have hi' : i < (runOutcomes env 0 (buildDeploymentsMap (listedDeployments env))).length :=
    h2 ▸ hi
  simp only [h2]
  rw [runOutcomes_restartedOn env 0 _ i hi', Nat.zero_add]

/-- C2 witness: in `envTwoPods` the second PodOutcome carries the second
clock reading. -/
theorem c2_witness :
    (redeployDatabasePods envTwoPods).2.1 = none ∧
      ((redeployDatabasePods envTwoPods).1.Pods.get ⟨1, by decide⟩).RestartedOn =
        envTwoPods.clock 1 :=
  ⟨rfl, c2_timestamp_per_pod envTwoPods 1 rfl (by decide)⟩

/-- C3: the code contradicts the claim (and its own doc comment,
src/main.go:99): when the second deployment's pod-list call fails, the
function returns the error together with the partial results accumulated
for the first deployment — the returned value is not empty and the
partial PodOutcomes are not discarded. -/
theorem c3_error_returns_partial_results :
    (redeployDatabasePods envPartial).2.1 = some (podListErrMsg "database-b" "boom") ∧
      (redeployDatabasePods envPartial).1 =
        { Name := "database-a", Pods := [{ Name := "pod-a1", RestartedOn := "t0" }] } ∧
      (redeployDatabasePods envPartial).1.Pods ≠ [] := by
  refine ⟨rfl, rfl, ?_⟩
  decide

/-- C5: a deployment name returned by the cluster-wide list is selected
(has a key in the discovery map) iff it contains the literal substring
"database". -/
theorem c5_database_name_filter (ds : List Deployment) (D : String)
    (h : D ∈ ds.map fun d => d.name) :
    D ∈ (buildDeploymentsMap ds).map Prod.fst ↔ databaseSub <:+: D.toList := by
  have hiff : List.filter (matchedAs D) ds ≠ [] ↔ databaseSub <:+: D.toList := by
    constructor
    · intro hne
      obtain ⟨d, hd⟩ := List.exists_mem_of_ne_nil _ hne
      have hd2 := List.mem_filter.mp hd
      have hm := hd2.2
      rw [matchedAs, Bool.and_eq_true, beq_iff_eq] at hm
      exact hm.2 ▸ (containsSubstring_spec _ _).mp hm.1
    · intro hinf
      obtain ⟨d, hd, hname⟩ := List.mem_map.mp h
      refine List.ne_nil_of_mem (List.mem_filter.mpr ⟨hd, ?_⟩)
      rw [matchedAs, Bool.and_eq_true, beq_iff_eq]
      exact ⟨(containsSubstring_spec _ _).mpr (hname ▸ hinf), hname⟩
  have hmap : ∀ o : Option Deployment,
      (o.map fun d => formatLabelSelector d.selector).isSome = o.isSome := by
    intro o; cases o <;> rfl
  rw [← lookup_isSome_iff_mem_keys, buildDeploymentsMap_lookup, hmap,
    List.getLast?_isSome, hiff]

/-- C5 witness: `database-a` (listed) is selected, as it contains the
substring. -/
theorem c5_witness :
    "database-a" ∈ (buildDeploymentsMap dsFilter).map Prod.fst ↔
      databaseSub <:+: "database-a".toList :=
  c5_database_name_filter dsFilter "database-a" (by decide)

/-- C6: every API error is fatal with no retry.  First part: if the map
splits as `pre ++ (D, sel) :: post`, processing `pre` succeeded and the
pod-list call for `sel` fails, then the run returns exactly the pod-list
error naming `D`, the trace ends at that failed call, and every patch call
of the whole run targets a deployment of `pre` (so none for `D` or for any
not-yet-processed deployment of `post`).  Second part: a failing patch
call aborts the pod loop immediately with an error naming both the
deployment and the pod, issuing no further calls. -/
theorem c6_fail_fast :
    (∀ (env : ClusterEnv) (pre post : List (String × List Char)) (D : String)
        (sel : List Char) (e : String) (acc1 : DeploymentDetails) (idx1 : Nat)
        (tr1 : List ApiEvent),
      (∃ ds, env.deployments = Except.ok ds) →
      buildDeploymentsMap (listedDeployments env) = pre ++ (D, sel) :: post →
      deployLoop env pre 0 emptyDetails [ApiEvent.listDeployments] = (acc1, none, idx1, tr1) →
      env.pods sel = Except.error e →
      redeployDatabasePods env =
          (acc1, some (podListErrMsg D e), tr1 ++ [ApiEvent.listPods sel]) ∧
        ∀ n ∈ patchNames (tr1 ++ [ApiEvent.listPods sel]), n ∈ pre.map Prod.fst) ∧
    (∀ (env : ClusterEnv) (D : String) (pod : Pod) (rest : List Pod) (idx : Nat)
        (acc : DeploymentDetails) (tr : List ApiEvent) (e : String),
      env.patch pod.ns D (patchBody (env.clock idx)) = some e →
      podLoop env D (pod :: rest) idx acc tr =
        (acc, some (patchErrMsg D pod.name e), idx + 1,
          tr ++ [ApiEvent.patchDeployment pod.ns D (patchBody (env.clock idx))])) := by
  constructor
  · intro env pre post D sel e acc1 idx1 tr1 hds hsplit hpre hfail
    obtain ⟨ds, hd⟩ := hds
    have hdsl : listedDeployments env = ds := by simp [listedDeployments, hd]
    rw [hdsl] at hsplit
    obtain ⟨_, _, h3⟩ := deployLoop_ok env pre 0 emptyDetails acc1
      [ApiEvent.listDeployments] tr1 idx1 hpre
    constructor
    · simp only [redeployDatabasePods, hd, hsplit]
      rw [deployLoop_append_ok env pre ((D, sel) :: post) 0 emptyDetails acc1
        [ApiEvent.listDeployments] tr1 idx1 hpre]
      rw [deployLoop]
      simp only [hfail]
    · intro n hn
      rw [h3, patchNames_append, patchNames_append] at hn
      rw [patchNames_cons_listDeployments] at hn
      simp only [patchNames, List.append_nil] at hn
      exact mem_patchNames_deployTrace env 0 pre n hn
  · intro env D pod rest idx acc tr e hfail
    rw [podLoop]
    simp only [hfail]

/-- C6 witness: the spec's three-deployment fail-fast scenario, plus an
immediately-aborting patch failure. -/
theorem c6_witness :
    redeployDatabasePods envFailFast =
        ({ Name := "database-primary", Pods := [{ Name := "pod-p1", RestartedOn := "t0" }] },
          some (podListErrMsg "database-second" "boom"),
          [ApiEvent.listDeployments, ApiEvent.listPods (formatLabelSelector (selApp "p")),
            ApiEvent.patchDeployment "ns1" "database-primary" (patchBody "t0"),
            ApiEvent.listPods (formatLabelSelector (selApp "s"))]) ∧
      podLoop envPatchFail "database-a" [⟨"pod-a1", "ns1"⟩] 0 emptyDetails [] =
        (emptyDetails, some (patchErrMsg "database-a" "pod-a1" "denied"), 1,
          [ApiEvent.patchDeployment "ns1" "database-a" (patchBody "t0")]) := by
  constructor
  · exact (c6_fail_fast.1 envFailFast
      [("database-primary", formatLabelSelector (selApp "p"))]
      [("database-third", formatLabelSelector (selApp "t"))]
      "database-second" (formatLabelSelector (selApp "s")) "boom"
      { Name := "database-primary", Pods := [{ Name := "pod-p1", RestartedOn := "t0" }] } 1
      [ApiEvent.listDeployments, ApiEvent.listPods (formatLabelSelector (selApp "p")),
        ApiEvent.patchDeployment "ns1" "database-primary" (patchBody "t0")]
      ⟨_, rfl⟩ rfl rfl rfl).1
  · exact c6_fail_fast.2 envPatchFail "database-a" ⟨"pod-a1", "ns1"⟩ [] 0 emptyDetails [] "denied" rfl

/-- C7: every patch document any run issues is, byte for byte, the
merge-patch `patchBody ts` — which sets only
`spec.template.metadata.annotations.restarted_at` — where `ts` is one of
the run's clock readings (the code's `time.Now().UTC().Format(RFC3339)`
values). -/
theorem c7_patch_body_shape (env : ClusterEnv) (ns n body : String)
    (h : ApiEvent.patchDeployment ns n body ∈ (redeployDatabasePods env).2.2) :
    ∃ i, body = patchBody (env.clock i) := by
  cases hd : env.deployments with
  | error e =>
    simp only [redeployDatabasePods, hd] at h
    simp at h
  | ok ds =>
    simp only [redeployDatabasePods, hd] at h
    cases hq : deployLoop env (buildDeploymentsMap ds) 0 emptyDetails
        [ApiEvent.listDeployments] with
    | mk out r3 =>
      obtain ⟨err, idx2, tr2⟩ := r3
      simp only [hq] at h
      have hshaped := deployLoop_patchShaped env (buildDeploymentsMap ds) 0 emptyDetails
        [ApiEvent.listDeployments]
        (by
          intro ev hev
          rw [List.mem_singleton] at hev
          subst hev
          intro ns2 n2 b2 heq
          cases heq)
      rw [hq] at hshaped
      exact hshaped _ h ns n body rfl

/-- C7 witness: a concrete patch event of the `envTwoPods` run has the
merge-patch shape at some clock reading. -/
theorem c7_witness :
    ApiEvent.patchDeployment "ns1" "database-a" (patchBody "t0") ∈
        (redeployDatabasePods envTwoPods).2.2 ∧
      ∃ i, patchBody "t0" = patchBody (envTwoPods.clock i) :=
  ⟨by decide, c7_patch_body_shape envTwoPods "ns1" "database-a" (patchBody "t0") (by decide)⟩

/-- C8: on a successful run the result's single Name field is the last
processed map entry's deployment name (last-write-wins), and the flat
PodOutcome sequence is the concatenation, over the map entries in
processing order, of each entry's listed pods in API list order. -/
theorem c8_last_name_flat_outcomes (env : ClusterEnv)
    (hok : (redeployDatabasePods env).2.1 = none) :
    (redeployDatabasePods env).1.Name =
        ((buildDeploymentsMap (listedDeployments env)).map Prod.fst).getLastD "" ∧
      ((redeployDatabasePods env).1.Pods.map fun p => p.Name) =
        (buildDeploymentsMap (listedDeployments env)).flatMap
          fun e => (listedPods env e.2).map fun p => p.name := by
  obtain ⟨h1, h2, _⟩ := run_ok_spec env hok
  exact ⟨h1, by rw [h2, runOutcomes_names]⟩

/-- C8 witness: the `envTwoPods` run, evaluated. -/
theorem c8_witness :
    (redeployDatabasePods envTwoPods).1.Name =
        ((buildDeploymentsMap (listedDeployments envTwoPods)).map Prod.fst).getLastD "" ∧
      ((redeployDatabasePods envTwoPods).1.Pods.map fun p => p.Name) =
        (buildDeploymentsMap (listedDeployments envTwoPods)).flatMap
          fun e => (listedPods envTwoPods e.2).map fun p => p.name :=
  c8_last_name_flat_outcomes envTwoPods rfl

/-- C9: discovery keys matched deployments by name alone — the discovery
map has no duplicate keys (identically named matches collapse into one
entry, processed once by the loop), and the value stored under a name is
the formatted selector of the last listed matching deployment with that
name. -/
theorem c9_dedup_by_name (ds : List Deployment) (D : String) :
    ((buildDeploymentsMap ds).map Prod.fst).Nodup ∧
      (buildDeploymentsMap ds).lookup D =
        ((ds.filter (matchedAs D)).getLast?).map fun d => formatLabelSelector d.selector :=
  ⟨buildDeploymentsMap_keys_nodup ds, buildDeploymentsMap_lookup ds D⟩

/-- C10: a matched deployment whose pod-list call succeeds with zero pods
contributes no patch call and no PodOutcome, yet still overwrites the
result's Name field before the loop moves on. -/
theorem c10_zero_pods (env : ClusterEnv) (D : String) (sel : List Char)
    (rest : List (String × List Char)) (idx : Nat) (acc : DeploymentDetails)
    (tr : List ApiEvent) (h : env.pods sel = Except.ok []) :
    deployLoop env ((D, sel) :: rest) idx acc tr =
      deployLoop env rest idx { acc with Name := D } (tr ++ [ApiEvent.listPods sel]) := by
  rw [deployLoop]
  simp only [h]
  rw [podLoop]

/-- C10 witness: concrete zero-pod step. -/
theorem c10_witness :
    deployLoop envNoPods [("database-a", formatLabelSelector (selApp "a"))] 0 emptyDetails [] =
      deployLoop envNoPods [] 0 { emptyDetails with Name := "database-a" }
        [ApiEvent.listPods (formatLabelSelector (selApp "a"))] :=
  c10_zero_pods envNoPods "database-a" (formatLabelSelector (selApp "a")) [] 0
    emptyDetails [] rfl

/-! ## Selector grammar lemmas: top-level comma split -/

theorem noTopComma_cons (d : Nat) (c : Char) (r : List Char) (h : ¬(c = ',' ∧ d = 0)) :
    noTopComma d (c :: r) = noTopComma (stepDepth d c) r := by
  rw [noTopComma, if_neg h]

theorem finalDepth_cons (d : Nat) (c : Char) (r : List Char) :
    finalDepth d (c :: r) = finalDepth (stepDepth d c) r := rfl

theorem splitTop_append (p : List Char) (d : Nat) (rest : List Char)
    (h : noTopComma d p = true) :
    splitTop d (p ++ rest) =
      (p ++ (splitTop (finalDepth d p) rest).1, (splitTop (finalDepth d p) rest).2) := by
  induction p generalizing d with
  | nil => simp [finalDepth]
  | cons c p ih =>
    rw [noTopComma] at h
    by_cases hc : c = ',' ∧ d = 0
    · rw [if_pos hc] at h
      exact absurd h (by simp)
    · rw [if_neg hc] at h
      rw [List.cons_append, splitTop, if_neg hc, ih (stepDepth d c) h, finalDepth_cons]
      simp

theorem splitTop_comma_cons (rest : List Char) :
    splitTop 0 (',' :: rest) = ([], (splitTop 0 rest).1 :: (splitTop 0 rest).2) := by
  rw [splitTop, if_pos ⟨rfl, rfl⟩]

/-- Splitting a comma-joined selector string at top-level commas recovers
the requirement strings, provided each balances its parentheses and has
no top-level comma of its own. -/
theorem splitSelector_joinChar (parts : List (List Char)) (hne : parts ≠ [])
    (h : ∀ p ∈ parts, noTopComma 0 p = true ∧ finalDepth 0 p = 0) :
    splitSelector (joinChar ',' parts) = parts := by
  induction parts with
  | nil => exact absurd rfl hne
  | cons p parts ih =>
    cases parts with
    | nil =>
      have hp := h p (List.mem_cons_self _ _)
      rw [joinChar, splitSelector]
      have h2 := splitTop_append p 0 [] hp.1
      rw [List.append_nil, hp.2] at h2
      rw [h2]
      simp [splitTop]
    | cons q parts2 =>
      have hp := h p (List.mem_cons_self _ _)
      rw [joinChar, splitSelector]
      have h2 := splitTop_append p 0 (',' :: joinChar ',' (q :: parts2)) hp.1
      rw [hp.2] at h2
      simp only [h2, splitTop_comma_cons, List.append_nil]
      have ih2 := ih (by simp) fun p2 hp2 => h p2 (List.mem_cons_of_mem _ hp2)
      rw [splitSelector] at ih2
      rw [ih2]

/-! ## Selector grammar lemmas: requirement strings are split-safe -/

theorem plainChar_spec (c : Char) (h : plainChar c = true) :
    c ≠ ',' ∧ c ≠ ' ' ∧ c ≠ '(' ∧ c ≠ ')' ∧ c ≠ '=' ∧ c ≠ '!' := by
  rw [plainChar, Bool.not_eq_true', Bool.or_eq_false_iff, Bool.or_eq_false_iff,
    Bool.or_eq_false_iff, Bool.or_eq_false_iff, Bool.or_eq_false_iff] at h
  refine ⟨?_, ?_, ?_, ?_, ?_, ?_⟩ <;>
    simp only [← beq_eq_false_iff_ne]
  · exact h.1.1.1.1.1
  · exact h.1.1.1.1.2
  · exact h.1.1.1.2
  · exact h.1.1.2
  · exact h.1.2
  · exact h.2

theorem stepDepth_plain (d : Nat) (c : Char) (h : plainChar c = true) :
    stepDepth d c = d := by
  obtain ⟨-, -, h3, h4, -, -⟩ := plainChar_spec c h
  rw [stepDepth, if_neg h3, if_neg h4]

theorem noTopComma_plain (p : List Char) (h : plainStr p = true) (d : Nat) :
    noTopComma d p = true ∧ finalDepth d p = d := by
  induction p generalizing d with
  | nil => exact ⟨rfl, rfl⟩
  | cons c p ih =>
    rw [plainStr, List.all_cons, Bool.and_eq_true] at h
    have hc := plainChar_spec c h.1
    have hs := stepDepth_plain d c h.1
    constructor
    · rw [noTopComma_cons d c p fun hand => hc.1 hand.1, hs]
      exact (ih h.2 d).1
    · rw [finalDepth_cons, hs]
      exact (ih h.2 d).2

theorem mem_joinChar (c0 sep : Char) (parts : List (List Char))
    (h : c0 ∈ joinChar sep parts) : c0 = sep ∨ ∃ p ∈ parts, c0 ∈ p := by
  induction parts with
  | nil => simp [joinChar] at h
  | cons p parts ih =>
    cases parts with
    | nil =>
      rw [joinChar] at h
      exact Or.inr ⟨p, List.mem_cons_self _ _, h⟩
    | cons q parts2 =>
      rw [joinChar] at h
      rcases List.mem_append.mp h with h1 | h1
      · exact Or.inr ⟨p, List.mem_cons_self _ _, h1⟩
      · rcases List.mem_cons.mp h1 with h2 | h2
        · exact Or.inl h2
        · rcases ih h2 with h3 | ⟨p2, hp2, hc⟩
          · exact Or.inl h3
          · exact Or.inr ⟨p2, List.mem_cons_of_mem _ hp2, hc⟩

theorem noTopComma_depth1 (l : List Char)
    (h : ∀ c ∈ l, plainChar c = true ∨ c = ',') (d : Nat) (hd : d ≠ 0) :
    noTopComma d l = true ∧ finalDepth d l = d := by
  induction l with
  | nil => exact ⟨rfl, rfl⟩
  | cons c l ih =>
    have hc := h c (List.mem_cons_self _ _)
    have hstep : stepDepth d c = d := by
      rcases hc with hp | hcomma
      · exact stepDepth_plain d c hp
      · subst hcomma
        rw [stepDepth, if_neg (by decide), if_neg (by decide)]
    have hcond : ¬(c = ',' ∧ d = 0) := fun hand => hd hand.2
    rw [noTopComma_cons d c l hcond, finalDepth_cons, hstep]
    exact ih fun c2 h2 => h c2 (List.mem_cons_of_mem _ h2)

theorem noTopComma_append (a b : List Char) (d : Nat) :
    noTopComma d (a ++ b) = (noTopComma d a && noTopComma (finalDepth d a) b) := by
  induction a generalizing d with
  | nil => simp [noTopComma, finalDepth]
  | cons c a ih =>
    rw [List.cons_append]
    by_cases hc : c = ',' ∧ d = 0
    · rw [noTopComma, if_pos hc, noTopComma, if_pos hc]
      simp
    · rw [noTopComma_cons _ _ _ hc, noTopComma_cons _ _ _ hc, finalDepth_cons,
        ih (stepDepth d c)]

theorem finalDepth_append (a b : List Char) (d : Nat) :
    finalDepth d (a ++ b) = finalDepth (finalDepth d a) b := by
  induction a generalizing d with
  | nil => rfl
  | cons c a ih => rw [List.cons_append, finalDepth_cons, finalDepth_cons, ih]

theorem termOk_eq (k v : List Char) (hkp : plainStr k = true) (hvp : plainStr v = true) :
    noTopComma 0 (k ++ '=' :: v) = true ∧ finalDepth 0 (k ++ '=' :: v) = 0 := by
  have hk := noTopComma_plain k hkp 0
  have hv := noTopComma_plain v hvp 0
  constructor
  · rw [noTopComma_append, hk.1, hk.2,
      noTopComma_cons 0 '=' v (by decide), (by decide : stepDepth 0 '=' = 0), hv.1]
    rfl
  · rw [finalDepth_append, hk.2, finalDepth_cons,
      (by decide : stepDepth 0 '=' = 0), hv.2]

theorem termOk_inStyle (k body mid : List Char) (hkp : plainStr k = true)
    (hbody : ∀ c ∈ body, plainChar c = true ∨ c = ',')
    (hmid1 : noTopComma 0 mid = true) (hmid2 : finalDepth 0 mid = 1) :
    noTopComma 0 (k ++ (mid ++ (body ++ [')']))) = true ∧
      finalDepth 0 (k ++ (mid ++ (body ++ [')']))) = 0 := by
  have hk := noTopComma_plain k hkp 0
  have hb := noTopComma_depth1 body hbody 1 (by decide)
  constructor
  · rw [noTopComma_append, hk.1, hk.2, noTopComma_append, hmid1, hmid2,
      noTopComma_append, hb.1, hb.2]
    decide
  · rw [finalDepth_append, hk.2, finalDepth_append, hmid2, finalDepth_append, hb.2]
    decide

theorem termOk_not (k : List Char) (hkp : plainStr k = true) :
    noTopComma 0 ('!' :: k) = true ∧ finalDepth 0 ('!' :: k) = 0 := by
  have hk := noTopComma_plain k hkp 0
  constructor
  · rw [noTopComma_cons 0 '!' k (by decide), (by decide : stepDepth 0 '!' = 0), hk.1]
  · rw [finalDepth_cons, (by decide : stepDepth 0 '!' = 0), hk.2]

/-! ## Selector grammar lemmas: substring search -/

theorem isPrefixOf_append_self (l r : List Char) : l.isPrefixOf (l ++ r) = true := by
  induction l with
  | nil => cases r <;> rfl
  | cons a l ih =>
    rw [List.cons_append]
    show (a == a && l.isPrefixOf (l ++ r)) = true
    rw [ih, beq_self_eq_true]
    rfl

theorem isPrefixOf_cons_false (sep : List Char) (c a : Char) (rest : List Char)
    (hhead : sep.head? = some c) (hne : a ≠ c) :
    sep.isPrefixOf (a :: rest) = false := by
  cases sep with
  | nil => simp at hhead
  | cons c0 sep2 =>
    have hc0 : c0 = c := by simpa using hhead
    subst hc0
    show (c0 == a && sep2.isPrefixOf rest) = false
    rw [beq_eq_false_iff_ne.mpr (Ne.symm hne), Bool.false_and]

theorem splitFirstSub_cons_neg (sep : List Char) (a : Char) (rest : List Char)
    (h : sep.isPrefixOf (a :: rest) = false) :
    splitFirstSub sep (a :: rest) =
      (splitFirstSub sep rest).map fun pr => (a :: pr.1, pr.2) := by
  rw [splitFirstSub, if_neg (by simp [h])]
  cases hsp : splitFirstSub sep rest with
  | none => rfl
  | some pr => rfl

theorem splitFirstSub_append_left (sep : List Char) (c : Char) (l r : List Char)
    (hhead : sep.head? = some c) (hl : ∀ a ∈ l, a ≠ c) :
    splitFirstSub sep (l ++ r) =
      (splitFirstSub sep r).map fun pr => (l ++ pr.1, pr.2) := by
  induction l with
  | nil =>
    rw [List.nil_append]
    cases hsp : splitFirstSub sep r with
    | none => rfl
    | some pr => rfl
  | cons a l ih =>
    have hpf := isPrefixOf_cons_false sep c a (l ++ r) hhead
      (hl a (List.mem_cons_self _ _))
    rw [List.cons_append, splitFirstSub_cons_neg sep a (l ++ r) hpf,
      ih fun a2 h2 => hl a2 (List.mem_cons_of_mem _ h2)]
    cases splitFirstSub sep r with
    | none => rfl
    | some pr => rfl

theorem splitFirstSub_none (sep : List Char) (c : Char) (s : List Char)
    (hhead : sep.head? = some c) (hs : ∀ a ∈ s, a ≠ c) :
    splitFirstSub sep s = none := by
  induction s with
  | nil => rfl
  | cons a s ih =>
    have hpf := isPrefixOf_cons_false sep c a s hhead (hs a (List.mem_cons_self _ _))
    rw [splitFirstSub_cons_neg sep a s hpf,
      ih fun a2 h2 => hs a2 (List.mem_cons_of_mem _ h2)]
    rfl

theorem splitFirstSub_self (sep r : List Char) (hne : sep ≠ []) :
    splitFirstSub sep (sep ++ r) = some ([], r) := by
  cases sep with
  | nil => exact absurd rfl hne
  | cons c sep2 =>
    have hp : (c :: sep2).isPrefixOf (c :: (sep2 ++ r)) = true := by
      rw [← List.cons_append]
      exact isPrefixOf_append_self _ _
    rw [List.cons_append, splitFirstSub, if_pos hp,
      show c :: (sep2 ++ r) = (c :: sep2) ++ r from rfl, List.drop_left]

/-! ## Selector grammar lemmas: value-list split -/

theorem splitCommaP_comma (rest : List Char) :
    splitCommaP (',' :: rest) = ([], (splitCommaP rest).1 :: (splitCommaP rest).2) := by
  rw [splitCommaP, if_pos rfl]

theorem splitCommaP_append (v r : List Char) (hv : ∀ a ∈ v, a ≠ ',') :
    splitCommaP (v ++ r) = (v ++ (splitCommaP r).1, (splitCommaP r).2) := by
  induction v with
  | nil => simp
  | cons a v ih =>
    rw [List.cons_append, splitCommaP, if_neg (hv a (List.mem_cons_self _ _)),
      ih fun a2 h2 => hv a2 (List.mem_cons_of_mem _ h2)]
    rfl

theorem splitOnComma_joinChar (vs : List (List Char)) (hne : vs ≠ [])
    (h : ∀ v ∈ vs, ∀ a ∈ v, a ≠ ',') :
    splitOnComma (joinChar ',' vs) = vs := by
  induction vs with
  | nil => exact absurd rfl hne
  | cons v vs ih =>
    cases vs with
    | nil =>
      rw [joinChar, splitOnComma]
      have h2 := splitCommaP_append v [] (h v (List.mem_cons_self _ _))
      rw [List.append_nil] at h2
      rw [h2]
      simp [splitCommaP]
    | cons w vs2 =>
      rw [joinChar, splitOnComma]
      have h2 := splitCommaP_append v (',' :: joinChar ',' (w :: vs2))
        (h v (List.mem_cons_self _ _))
      simp only [h2, splitCommaP_comma, List.append_nil]
      have ih2 := ih (by simp) fun v2 hv2 => h v2 (List.mem_cons_of_mem _ hv2)
      rw [splitOnComma] at ih2
      rw [ih2]

/-! ## Selector grammar lemmas: parsing a rendered requirement -/

theorem plainStr_mem (p : List Char) (hp : plainStr p = true) (a : Char) (ha : a ∈ p) :
    plainChar a = true := by
  rw [plainStr, List.all_eq_true] at hp
  exact hp a ha

theorem plain_head_ne (k : List Char) (hk : k ≠ []) (hkp : plainStr k = true) :
    ¬(k.head? = some '!') := by
  cases k with
  | nil => exact absurd rfl hk
  | cons c k2 =>
    rw [plainStr, List.all_cons, Bool.and_eq_true] at hkp
    intro hc
    simp only [List.head?_cons, Option.some.injEq] at hc
    exact (plainChar_spec c hkp.1).2.2.2.2.2 hc

theorem plain_append_head_ne (k x : List Char) (hk : k ≠ []) (hkp : plainStr k = true) :
    ¬((k ++ x).head? = some '!') := by
  cases k with
  | nil => exact absurd rfl hk
  | cons c k2 =>
    rw [plainStr, List.all_cons, Bool.and_eq_true] at hkp
    intro hc
    rw [List.cons_append] at hc
    simp only [List.head?_cons, Option.some.injEq] at hc
    exact (plainChar_spec c hkp.1).2.2.2.2.2 hc

theorem plain_append_ne_nil (k x : List Char) (hk : k ≠ []) : k ++ x ≠ [] := by
  cases k with
  | nil => exact absurd rfl hk
  | cons c k2 => simp

/-- The eight-character needle " notin (" does not occur in an In-style
tail " in (v,...)" whose value region is space-free. -/
theorem splitFirstSub_notin_absent (body : List Char) (hbody : ∀ a ∈ body, a ≠ ' ') :
    splitFirstSub " notin (".toList (" in (".toList ++ (body ++ [')'])) = none := by
  have e1 : " in (".toList ++ (body ++ [')']) =
      ' ' :: 'i' :: 'n' :: ' ' :: '(' :: (body ++ [')']) := rfl
  rw [e1]
  rw [splitFirstSub_cons_neg _ _ _ (by rfl)]
  rw [splitFirstSub_cons_neg _ _ _ (by rfl)]
  rw [splitFirstSub_cons_neg _ _ _ (by rfl)]
  rw [splitFirstSub_cons_neg _ _ _ (by rfl)]
  rw [splitFirstSub_cons_neg _ _ _ (by rfl)]
  rw [splitFirstSub_none " notin (".toList ' ' (body ++ [')']) rfl ?_]
  · rfl
  · intro a ha
    rcases List.mem_append.mp ha with h1 | h1
    · exact hbody a h1
    · rw [List.mem_singleton] at h1
      subst h1
      decide

theorem parseTerm_eqLabel (k v : List Char) (hk : k ≠ []) (hkp : plainStr k = true)
    (hvp : plainStr v = true) :
    parseTerm (k ++ '=' :: v) = some (SelTerm.termEq k v) := by
  have hnospace : ∀ a ∈ k ++ '=' :: v, a ≠ ' ' := by
    intro a ha
    rcases List.mem_append.mp ha with h1 | h1
    · exact (plainChar_spec a (plainStr_mem k hkp a h1)).2.1
    · rcases List.mem_cons.mp h1 with h2 | h2
      · subst h2; decide
      · exact (plainChar_spec a (plainStr_mem v hvp a h2)).2.1
  have hnotin := splitFirstSub_none " notin (".toList ' ' (k ++ '=' :: v) rfl hnospace
  have hin := splitFirstSub_none " in (".toList ' ' (k ++ '=' :: v) rfl hnospace
  have heqsplit : splitFirstSub ['='] (k ++ '=' :: v) = some (k, v) := by
    rw [splitFirstSub_append_left ['='] '=' k ('=' :: v) rfl
      fun a ha => (plainChar_spec a (plainStr_mem k hkp a ha)).2.2.2.2.1]
    rw [show ('=' :: v) = ['='] ++ v from rfl, splitFirstSub_self _ _ (by simp)]
    simp
  rw [parseTerm, if_neg (plain_append_ne_nil k ('=' :: v) hk),
    if_neg (plain_append_head_ne k ('=' :: v) hk hkp)]
  simp only [hnotin, hin, heqsplit]

theorem parseTerm_bare (k : List Char) (hk : k ≠ []) (hkp : plainStr k = true) :
    parseTerm k = some (SelTerm.termHas k) := by
  have hnospace : ∀ a ∈ k, a ≠ ' ' :=
    fun a ha => (plainChar_spec a (plainStr_mem k hkp a ha)).2.1
  have hnoeq : ∀ a ∈ k, a ≠ '=' :=
    fun a ha => (plainChar_spec a (plainStr_mem k hkp a ha)).2.2.2.2.1
  rw [parseTerm, if_neg hk, if_neg (plain_head_ne k hk hkp)]
  simp only [splitFirstSub_none " notin (".toList ' ' k rfl hnospace,
    splitFirstSub_none " in (".toList ' ' k rfl hnospace,
    splitFirstSub_none ['='] '=' k rfl hnoeq]

theorem parseTerm_not (k : List Char) : parseTerm ('!' :: k) = some (SelTerm.termNot k) := by
  rw [parseTerm, if_neg (by simp), if_pos (show ('!' :: k).head? = some '!' from rfl)]
  rfl

theorem parseTerm_inExpr (k : List Char) (vs : List (List Char)) (hk : k ≠ [])
    (hkp : plainStr k = true) (hvs : ∀ v ∈ vs, plainStr v = true) (hvne : vs ≠ []) :
    parseTerm (k ++ (" in (".toList ++ (joinChar ',' vs ++ [')']))) =
      some (SelTerm.termIn k vs) := by
  have hbody : ∀ a ∈ joinChar ',' vs, plainChar a = true ∨ a = ',' := by
    intro a ha
    rcases mem_joinChar a ',' vs ha with h1 | ⟨p, hp, hap⟩
    · exact Or.inr h1
    · exact Or.inl (plainStr_mem p (hvs p hp) a hap)
  have hbodynospace : ∀ a ∈ joinChar ',' vs, a ≠ ' ' := by
    intro a ha
    rcases hbody a ha with h1 | h1
    · exact (plainChar_spec a h1).2.1
    · subst h1; decide
  have hknospace : ∀ a ∈ k, a ≠ ' ' :=
    fun a ha => (plainChar_spec a (plainStr_mem k hkp a ha)).2.1
  have hnotin : splitFirstSub " notin (".toList
      (k ++ (" in (".toList ++ (joinChar ',' vs ++ [')']))) = none := by
    rw [splitFirstSub_append_left " notin (".toList ' ' k _ rfl hknospace,
      splitFirstSub_notin_absent (joinChar ',' vs) hbodynospace]
    rfl
  have hin : splitFirstSub " in (".toList
      (k ++ (" in (".toList ++ (joinChar ',' vs ++ [')']))) =
      some (k, joinChar ',' vs ++ [')']) := by
    rw [splitFirstSub_append_left " in (".toList ' ' k _ rfl hknospace,
      splitFirstSub_self " in (".toList _ (by simp)]
    simp
  rw [parseTerm, if_neg (plain_append_ne_nil k _ hk),
    if_neg (plain_append_head_ne k _ hk hkp)]
  simp only [hnotin, hin]
  rw [if_pos (List.getLast?_concat _), List.dropLast_concat,
    splitOnComma_joinChar vs hvne
      fun v hv a ha => (plainChar_spec a (plainStr_mem v (hvs v hv) a ha)).1]

theorem parseTerm_notinExpr (k : List Char) (vs : List (List Char)) (hk : k ≠ [])
    (hkp : plainStr k = true) (hvs : ∀ v ∈ vs, plainStr v = true) (hvne : vs ≠ []) :
    parseTerm (k ++ (" notin (".toList ++ (joinChar ',' vs ++ [')']))) =
      some (SelTerm.termNotIn k vs) := by
  have hknospace : ∀ a ∈ k, a ≠ ' ' :=
    fun a ha => (plainChar_spec a (plainStr_mem k hkp a ha)).2.1
  have hnotin : splitFirstSub " notin (".toList
      (k ++ (" notin (".toList ++ (joinChar ',' vs ++ [')']))) =
      some (k, joinChar ',' vs ++ [')']) := by
    rw [splitFirstSub_append_left " notin (".toList ' ' k _ rfl hknospace,
      splitFirstSub_self " notin (".toList _ (by simp)]
    simp
  rw [parseTerm, if_neg (plain_append_ne_nil k _ hk),
    if_neg (plain_append_head_ne k _ hk hkp)]
  simp only [hnotin]
  rw [if_pos (List.getLast?_concat _), List.dropLast_concat,
    splitOnComma_joinChar vs hvne
      fun v hv a ha => (plainChar_spec a (plainStr_mem v (hvs v hv) a ha)).1]

/-- Parsing the rendered form of a well-formed matchExpressions entry
recovers its requirement. -/
theorem parseTerm_renderExpr (e : MatchExpr) (h : wfExpr e = true) :
    parseTerm (renderExpr e) = some (exprTerm e) := by
  obtain ⟨key, op, vals⟩ := e
  rw [wfExpr, Bool.and_eq_true, Bool.and_eq_true, Bool.and_eq_true] at h
  have h1 := h.1
  have h2 := h.2.1
  have h3 := h.2.2.1
  have h4 := h.2.2.2
  have hk : key ≠ [] := by simpa [List.isEmpty_iff] using h1
  have hvs : ∀ v ∈ vals, plainStr v = true := List.all_eq_true.mp h3
  cases op with
  | opIn =>
    have hvne : vals ≠ [] := by simpa [List.isEmpty_iff] using h4
    exact parseTerm_inExpr key vals hk h2 hvs hvne
  | opNotIn =>
    have hvne : vals ≠ [] := by simpa [List.isEmpty_iff] using h4
    exact parseTerm_notinExpr key vals hk h2 hvs hvne
  | opExists => exact parseTerm_bare key hk h2
  | opDoesNotExist => exact parseTerm_not key

/-- The parsed requirement of an expression evaluates exactly as the
structured expression. -/
theorem evalTerm_exprTerm (pod : Labels) (e : MatchExpr) :
    evalTerm pod (exprTerm e) = matchesExpr pod e := by
  obtain ⟨key, op, vals⟩ := e
  cases op <;> rfl

/-! ## Selector round-trip assembly -/

theorem all_map_general {α β : Type} (f : α → β) (p : β → Bool) :
    ∀ xs : List α, (xs.map f).all p = xs.all fun x => p (f x)
  | [] => rfl
  | x :: xs => by
    rw [List.map_cons, List.all_cons, List.all_cons, all_map_general f p xs]

theorem all_eq_of_forall {α : Type} {p q : α → Bool} :
    ∀ xs : List α, (∀ x ∈ xs, p x = q x) → xs.all p = xs.all q
  | [], _ => rfl
  | x :: xs, h => by
    rw [List.all_cons, List.all_cons, h x (List.mem_cons_self _ _),
      all_eq_of_forall xs fun y hy => h y (List.mem_cons_of_mem _ hy)]

theorem joinChar_chars (vs : List (List Char)) (hvs : ∀ v ∈ vs, plainStr v = true) :
    ∀ a ∈ joinChar ',' vs, plainChar a = true ∨ a = ',' := by
  intro a ha
  rcases mem_joinChar a ',' vs ha with h1 | ⟨p, hp, hap⟩
  · exact Or.inr h1
  · exact Or.inl (plainStr_mem p (hvs p hp) a hap)

theorem wfSelector_parts (s : LabelSelector) (h : wfSelector s = true) :
    (∀ kv ∈ s.matchLabels, kv.1 ≠ [] ∧ plainStr kv.1 = true ∧ plainStr kv.2 = true) ∧
      (∀ e ∈ s.matchExpressions, wfExpr e = true) ∧ termStrings s ≠ [] := by
  rw [wfSelector, Bool.and_eq_true, Bool.and_eq_true] at h
  refine ⟨?_, List.all_eq_true.mp h.2.1, ?_⟩
  · intro kv hkv
    have h2 := List.all_eq_true.mp h.1 kv hkv
    rw [Bool.and_eq_true, Bool.and_eq_true] at h2
    exact ⟨by simpa [List.isEmpty_iff] using h2.1, h2.2.1, h2.2.2⟩
  · intro hts
    rw [termStrings, List.append_eq_nil] at hts
    obtain ⟨hml, hme⟩ := hts
    rw [List.map_eq_nil_iff] at hml hme
    have h22 := h.2.2
    rw [hml, hme] at h22
    simp at h22

theorem termStrings_ok (s : LabelSelector) (h : wfSelector s = true) :
    ∀ p ∈ termStrings s, noTopComma 0 p = true ∧ finalDepth 0 p = 0 := by
  obtain ⟨hml, hme, -⟩ := wfSelector_parts s h
  intro p hp
  rw [termStrings] at hp
  rcases List.mem_append.mp hp with h1 | h1
  · obtain ⟨kv, hkv, heq⟩ := List.mem_map.mp h1
    obtain ⟨-, hk, hv⟩ := hml kv hkv
    rw [← heq]
    exact termOk_eq kv.1 kv.2 hk hv
  · obtain ⟨e, he, heq⟩ := List.mem_map.mp h1
    have hwf := hme e he
    rw [← heq]
    obtain ⟨key, op, vals⟩ := e
    rw [wfExpr, Bool.and_eq_true, Bool.and_eq_true, Bool.and_eq_true] at hwf
    have hkeyp := hwf.2.1
    have hvalsp := List.all_eq_true.mp hwf.2.2.1
    cases op with
    | opIn =>
      rw [renderExpr]
      exact termOk_inStyle key (joinChar ',' vals) " in (".toList hkeyp
        (joinChar_chars vals hvalsp) (by decide) (by decide)
    | opNotIn =>
      rw [renderExpr]
      exact termOk_inStyle key (joinChar ',' vals) " notin (".toList hkeyp
        (joinChar_chars vals hvalsp) (by decide) (by decide)
    | opExists =>
      rw [renderExpr]
      exact noTopComma_plain key hkeyp 0
    | opDoesNotExist =>
      rw [renderExpr]
      exact termOk_not key hkeyp

/-- C4: the structured-to-string selector conversion is faithful — for a
well-formed structured selector, filtering any pod label set by the
rendered selector-query string (per the canonical grammar: split at
top-level commas, parse each requirement as `key=value`,
`key in (...)`, `key notin (...)`, bare `key`, or `!key`, and evaluate)
selects exactly the pods satisfying the structured selector's matchLabels
and matchExpressions. -/
theorem c4_selector_roundtrip (s : LabelSelector) (pod : Labels)
    (h : wfSelector s = true) :
    evalSelectorString (formatLabelSelector s) pod = matchesSelector s pod := by
  obtain ⟨hml, hme, hne⟩ := wfSelector_parts s h
  rw [formatLabelSelector, renderSelector, evalSelectorString,
    splitSelector_joinChar (termStrings s) hne (termStrings_ok s h)]
  rw [termStrings, List.all_append, matchesSelector]
  congr 1
  · rw [all_map_general]
    refine all_eq_of_forall _ fun kv hkv => ?_
    obtain ⟨hk, hkp, hvp⟩ := hml kv hkv
    rw [parseTerm_eqLabel kv.1 kv.2 hk hkp hvp]
    rfl
  · rw [all_map_general]
    refine all_eq_of_forall _ fun e he => ?_
    rw [parseTerm_renderExpr e (hme e he)]
    exact evalTerm_exprTerm pod e

/-- C4 witness: the spec's sample selector, rendered and evaluated on a
concrete pod label set, agrees with the structured semantics. -/
theorem c4_witness :
    wfSelector selRound = true ∧
      evalSelectorString (formatLabelSelector selRound) podRound =
        matchesSelector selRound podRound :=
  ⟨by decide, c4_selector_roundtrip selRound podRound (by decide)⟩

end Redeploy
